import Mathlib

/-
  Verification development for the ArchMM hidden Markov model engine
  (archmm/hmm.pyx).  The numeric kernel, forward-backward engine,
  Baum-Welch M-step, emission updates and decoding entry points are
  shallowly embedded below; machine doubles are modelled as exact real
  numbers extended with the IEEE special values -inf, +inf and NaN
  (type `Fl`).  Exact real arithmetic is used everywhere except where
  the behaviour of the code materially depends on IEEE underflow
  (`eexp` applied after `np.nan_to_num`), which is modelled by an
  explicit underflow threshold in `fexp`.
-/

namespace ArchMM

/-- Model of a C double as stored in the data arrays of hmm.pyx:
an exact real number, or one of the special values -inf (`ninf`,
the `LOG_ZERO` sentinel of hmm.pyx line 34), +inf (`pinf`) and NaN. -/
inductive Fl where
  | fin (x : ℝ)
  | ninf
  | pinf
  | nan

/-- IEEE addition on `Fl` (exact on finite values): NaN is absorbing,
inf + (-inf) = NaN, otherwise infinities are absorbing. -/
noncomputable def Fl.add : Fl → Fl → Fl
  | .nan, _ => .nan
  | _, .nan => .nan
  | .pinf, .ninf => .nan
  | .ninf, .pinf => .nan
  | .pinf, _ => .pinf
  | _, .pinf => .pinf
  | .ninf, _ => .ninf
  | _, .ninf => .ninf
  | .fin a, .fin b => .fin (a + b)

/-- IEEE subtraction on `Fl` (exact on finite values). -/
noncomputable def Fl.sub : Fl → Fl → Fl
  | .nan, _ => .nan
  | _, .nan => .nan
  | .pinf, .pinf => .nan
  | .ninf, .ninf => .nan
  | .pinf, _ => .pinf
  | .ninf, _ => .ninf
  | .fin _, .pinf => .ninf
  | .fin _, .ninf => .pinf
  | .fin a, .fin b => .fin (a - b)

noncomputable instance : Add Fl := ⟨Fl.add⟩
noncomputable instance : Sub Fl := ⟨Fl.sub⟩

/-- A value that can legitimately appear in a log-probability array:
either finite or the LOG_ZERO sentinel -inf. -/
def IsLog : Fl → Prop
  | .fin _ => True
  | .ninf => True
  | _ => False

/-- One update step of the running maximum in `_max` (hmm.pyx lines
49-54): `if vec[i] > best_val: best_val = vec[i]`, with IEEE comparison
semantics (any comparison involving NaN is false). -/
noncomputable def Fl.maxStep : Fl → Fl → Fl
  | acc, .nan => acc
  | acc, .ninf => acc
  | .nan, _ => .nan
  | .pinf, _ => .pinf
  | .ninf, v => v
  | .fin _, .pinf => .pinf
  | .fin a, .fin x => if a < x then .fin x else .fin a

/-- `_max` of hmm.pyx lines 38-54: running maximum started at -INF. -/
noncomputable def flMax (l : List Fl) : Fl := l.foldl Fl.maxStep Fl.ninf

/-- The shifted exponential `exp(vec[i] - offset)` of hmm.pyx line 77,
for a finite offset `m`.  An entry -inf contributes exp(-inf) = 0.
A +inf or NaN entry cannot occur together with a finite maximum in the
runs considered here (`flMax` returns +inf whenever an entry is +inf,
and all theorems below assume NaN-free input), so those branches are
given the junk value 0. -/
noncomputable def expShift (m : ℝ) : Fl → ℝ
  | .fin x => Real.exp (x - m)
  | _ => 0

/-- `elogsum` of hmm.pyx lines 57-78: offset by the maximum, sum the
shifted exponentials, take the log and add the offset back.  When
`isinf(offset)` holds the routine short-circuits and returns -INF;
note that libc `isinf` is also true for +inf, so a +inf maximum yields
-INF as well, exactly as in the source. -/
noncomputable def elogsum (l : List Fl) : Fl :=
  match flMax l with
  | Fl.ninf => Fl.ninf
  | Fl.pinf => Fl.ninf
  | Fl.nan => Fl.nan
  | Fl.fin m => Fl.fin (Real.log ((l.map (expShift m)).sum) + m)

/-- The exact-arithmetic extended exponential of spec section 4.1:
eexp(x) = exp(x) if x is not LOG_ZERO, else 0.  (+inf and NaN inputs
do not occur in log-probability arrays; they are mapped to the junk
value 0 and excluded by `IsLog` hypotheses wherever this is used.) -/
noncomputable def eexpExact : Fl → ℝ
  | .fin x => Real.exp x
  | _ => 0

/-- The log-sum-exp reduction as worded in the spec (sections 4.1 and
4.4): the logarithm of the sum of the (extended) exponentials, with
LOG_ZERO returned for an all-zero-probability row.  This definition
follows the spec's words and is compared against the source's
`elogsum` below. -/
noncomputable def lseSpec (l : List Fl) : Fl :=
  if (l.map eexpExact).sum = 0 then Fl.ninf
  else Fl.fin (Real.log ((l.map eexpExact).sum))

/- ------------------------------------------------------------------
   Basic lemmas about the numeric kernel
   ------------------------------------------------------------------ -/

theorem fin_add_fin (a b : ℝ) : Fl.fin a + Fl.fin b = Fl.fin (a + b) := rfl

theorem ninf_add_fin (b : ℝ) : Fl.ninf + Fl.fin b = Fl.ninf := rfl

theorem fin_add_ninf (a : ℝ) : Fl.fin a + Fl.ninf = Fl.ninf := rfl

theorem ninf_add_ninf : Fl.ninf + Fl.ninf = Fl.ninf := rfl

theorem fin_sub_fin (a b : ℝ) : Fl.fin a - Fl.fin b = Fl.fin (a - b) := rfl

theorem eexpExact_nonneg (x : Fl) : 0 ≤ eexpExact x := by
  cases x
  · exact (Real.exp_pos _).le
  all_goals simp [eexpExact]

theorem eexpExact_add (x y : Fl) (hx : IsLog x) (hy : IsLog y) :
    eexpExact (x + y) = eexpExact x * eexpExact y := by
  cases x <;> cases y <;> (try exact hx.elim) <;> (try exact hy.elim)
  all_goals
    simp [fin_add_fin, ninf_add_fin, fin_add_ninf, ninf_add_ninf,
      eexpExact, Real.exp_add]

theorem isLog_add (x y : Fl) (hx : IsLog x) (hy : IsLog y) : IsLog (x + y) := by
  cases x <;> cases y <;> (try exact hx.elim) <;> (try exact hy.elim)
  all_goals trivial

theorem eexpExact_eq_zero_iff (x : Fl) (hx : IsLog x) :
    eexpExact x = 0 ↔ x = Fl.ninf := by
  cases x <;> (try exact hx.elim) <;> simp [eexpExact, Real.exp_ne_zero]

theorem eexpExact_inj (x y : Fl) (hx : IsLog x) (hy : IsLog y)
    (h : eexpExact x = eexpExact y) : x = y := by
  cases x <;> cases y <;> (try exact hx.elim) <;> (try exact hy.elim)
  case fin.fin => exact congrArg Fl.fin (Real.exp_injective h)
  case fin.ninf => exact absurd h (Real.exp_ne_zero _)
  case ninf.fin => exact absurd h.symm (Real.exp_ne_zero _)
  case ninf.ninf => rfl

/-- Each `maxStep` result is either the accumulator or the new entry. -/
theorem maxStep_cases (acc v : Fl) :
    Fl.maxStep acc v = acc ∨ Fl.maxStep acc v = v := by
  cases acc <;> cases v <;>
    first
      | exact Or.inl rfl
      | exact Or.inr rfl
      | (rename_i a x
         by_cases h : a < x
         · exact Or.inr (by simp [Fl.maxStep, h])
         · exact Or.inl (by simp [Fl.maxStep, h]))

theorem foldl_maxStep_mem (l : List Fl) (a : Fl) :
    l.foldl Fl.maxStep a = a ∨ l.foldl Fl.maxStep a ∈ l := by
  induction l generalizing a with
  | nil => simp
  | cons x xs ih =>
      rw [List.foldl_cons]
      rcases maxStep_cases a x with h2 | h2 <;> rw [h2]
      · rcases ih a with h | h
        · exact Or.inl h
        · exact Or.inr (List.mem_cons_of_mem _ h)
      · rcases ih x with h | h
        · exact Or.inr (by rw [h]; exact List.mem_cons_self x xs)
        · exact Or.inr (List.mem_cons_of_mem _ h)

theorem flMax_mem (l : List Fl) : flMax l = Fl.ninf ∨ flMax l ∈ l := by
  simpa [flMax] using foldl_maxStep_mem l Fl.ninf

theorem foldl_maxStep_pinf (l : List Fl) : l.foldl Fl.maxStep Fl.pinf = Fl.pinf := by
  induction l with
  | nil => rfl
  | cons x xs ih => cases x <;> simpa [List.foldl_cons, Fl.maxStep] using ih

theorem foldl_maxStep_nan (l : List Fl) : l.foldl Fl.maxStep Fl.nan = Fl.nan := by
  induction l with
  | nil => rfl
  | cons x xs ih => cases x <;> simpa [List.foldl_cons, Fl.maxStep] using ih

theorem maxStep_fin_le (a x : Fl) (m : ℝ) (h : Fl.maxStep a x = Fl.fin m) :
    (∀ y, a = Fl.fin y → y ≤ m) ∧ (∀ y, x = Fl.fin y → y ≤ m) := by
  cases a <;> cases x <;> simp_all [Fl.maxStep]
  rename_i p q
  by_cases hpq : p < q
  · simp [hpq] at h
    exact ⟨h ▸ hpq.le, h ▸ le_refl q⟩
  · simp [hpq] at h
    exact ⟨h ▸ le_refl p, h ▸ le_of_not_lt hpq⟩

theorem foldl_maxStep_bound (l : List Fl) (a : Fl) (m : ℝ)
    (h : l.foldl Fl.maxStep a = Fl.fin m) :
    (∀ y, a = Fl.fin y → y ≤ m) ∧ (∀ y, Fl.fin y ∈ l → y ≤ m) := by
  induction l generalizing a with
  | nil =>
      simp only [List.foldl_nil] at h
      exact ⟨fun y hy => by rw [hy] at h; cases h; exact le_refl _, by simp⟩
  | cons x xs ih =>
      rw [List.foldl_cons] at h
      rcases hs : Fl.maxStep a x with m' | _ | _ | _
      · have hih := ih (Fl.maxStep a x) h
        have hm' : m' ≤ m := hih.1 m' (by rw [hs])
        have hb := maxStep_fin_le a x m' hs
        refine ⟨fun y hy => le_trans (hb.1 y hy) hm', fun y hy => ?_⟩
        rcases List.mem_cons.1 hy with hy | hy
        · exact le_trans (hb.2 y hy.symm) hm'
        · exact hih.2 y hy
      · have hih := ih (Fl.maxStep a x) h
        refine ⟨fun y hy => ?_, fun y hy => ?_⟩
        · rw [hy] at hs
          cases x <;> simp [Fl.maxStep] at hs
          rename_i q
          by_cases hpq : y < q <;> simp [hpq] at hs
        · rcases List.mem_cons.1 hy with hy | hy
          · rw [hy.symm] at hs
            cases a <;> simp [Fl.maxStep] at hs
            rename_i p
            by_cases hpq : p < y <;> simp [hpq] at hs
          · exact hih.2 y hy
      · rw [hs, foldl_maxStep_pinf] at h
        cases h
      · rw [hs, foldl_maxStep_nan] at h
        cases h

theorem flMax_fin_bound (l : List Fl) (m : ℝ) (h : flMax l = Fl.fin m) :
    ∀ y, Fl.fin y ∈ l → y ≤ m :=
  (foldl_maxStep_bound l Fl.ninf m h).2

theorem maxStep_ninf (a x : Fl) (h : Fl.maxStep a x = Fl.ninf) :
    a = Fl.ninf ∧ (x = Fl.ninf ∨ x = Fl.nan) := by
  cases a <;> cases x <;> simp_all [Fl.maxStep]
  rename_i p q
  by_cases hpq : p < q <;> simp [hpq] at h

theorem foldl_maxStep_eq_ninf (l : List Fl) (a : Fl)
    (hl : ∀ x ∈ l, IsLog x) (h : l.foldl Fl.maxStep a = Fl.ninf) :
    a = Fl.ninf ∧ ∀ x ∈ l, x = Fl.ninf := by
  induction l generalizing a with
  | nil => exact ⟨h, by simp⟩
  | cons x xs ih =>
      rw [List.foldl_cons] at h
      have hih := ih (Fl.maxStep a x) (fun y hy => hl y (List.mem_cons_of_mem _ hy)) h
      have hst := maxStep_ninf a x hih.1
      have hx : x = Fl.ninf := by
        rcases hst.2 with h2 | h2
        · exact h2
        · exact absurd (h2 ▸ hl x (List.mem_cons_self x xs)) (by simp [IsLog])
      exact ⟨hst.1, fun y hy => by
        rcases List.mem_cons.1 hy with hy | hy
        · exact hy ▸ hx
        · exact hih.2 y hy⟩

theorem foldl_maxStep_all_ninf (l : List Fl) (a : Fl)
    (hl : ∀ x ∈ l, x = Fl.ninf) : l.foldl Fl.maxStep a = a := by
  induction l generalizing a with
  | nil => rfl
  | cons x xs ih =>
      rw [List.foldl_cons, hl x (List.mem_cons_self x xs)]
      have : Fl.maxStep a Fl.ninf = a := by cases a <;> rfl
      rw [this]
      exact ih a (fun y hy => hl y (List.mem_cons_of_mem _ hy))

theorem flMax_eq_ninf_iff (l : List Fl) (hl : ∀ x ∈ l, IsLog x) :
    flMax l = Fl.ninf ↔ ∀ x ∈ l, x = Fl.ninf := by
  constructor
  · exact fun h => (foldl_maxStep_eq_ninf l Fl.ninf hl h).2
  · exact fun h => foldl_maxStep_all_ninf l Fl.ninf h

theorem expShift_eq (m : ℝ) (x : Fl) (hx : IsLog x) :
    expShift m x = Real.exp (-m) * eexpExact x := by
  cases x <;> (try exact hx.elim) <;>
    simp [expShift, eexpExact, Real.exp_sub, Real.exp_neg]
  ring

theorem elogsum_of_flMax_fin (l : List Fl) (m : ℝ) (hm : flMax l = Fl.fin m) :
    elogsum l = Fl.fin (Real.log ((l.map (expShift m)).sum) + m) := by
  rw [elogsum, hm]

theorem elogsum_of_flMax_ninf (l : List Fl) (hm : flMax l = Fl.ninf) :
    elogsum l = Fl.ninf := by
  rw [elogsum, hm]

/-- The source's shift-by-the-maximum `elogsum` computes exactly the
log-sum-exp described by the spec, on NaN-free log-probability input. -/
theorem elogsum_eq_lseSpec (l : List Fl) (hl : ∀ x ∈ l, IsLog x) :
    elogsum l = lseSpec l := by
  rcases hm : flMax l with m | _ | _ | _
  · -- finite maximum
    have hmem : Fl.fin m ∈ l := by
      rcases flMax_mem l with h | h
      · rw [hm] at h; cases h
      · exact hm ▸ h
    have hS_le : Real.exp m ≤ (l.map eexpExact).sum := by
      have := List.single_le_sum (l := l.map eexpExact)
        (fun x hx => by
          rcases List.mem_map.1 hx with ⟨y, _, rfl⟩
          exact eexpExact_nonneg y)
        (Real.exp m) (List.mem_map.2 ⟨Fl.fin m, hmem, rfl⟩)
      exact this
    have hS_pos : 0 < (l.map eexpExact).sum :=
      lt_of_lt_of_le (Real.exp_pos m) hS_le
    have hshift : (l.map (expShift m)).sum
        = Real.exp (-m) * (l.map eexpExact).sum := by
      rw [show l.map (expShift m) = l.map (fun x => Real.exp (-m) * eexpExact x) from
        List.map_congr_left (fun x hx => expShift_eq m x (hl x hx))]
      rw [← List.sum_map_mul_left]
    rw [elogsum_of_flMax_fin l m hm, lseSpec, if_neg (ne_of_gt hS_pos), hshift,
      Real.log_mul (Real.exp_ne_zero _) (ne_of_gt hS_pos), Real.log_exp]
    rw [show -m + Real.log ((l.map eexpExact).sum) + m
      = Real.log ((l.map eexpExact).sum) from by ring]
  · -- all entries are LOG_ZERO
    have hall := (flMax_eq_ninf_iff l hl).1 hm
    have hz : (l.map eexpExact).sum = 0 := by
      rw [show l.map eexpExact = l.map (fun _ => (0 : ℝ)) from
        List.map_congr_left (fun x hx => by rw [hall x hx]; rfl)]
      simp
    rw [elogsum_of_flMax_ninf l hm, lseSpec, if_pos hz]
  · -- +inf maximum: impossible on IsLog input
    have hmem : Fl.pinf ∈ l := by
      rcases flMax_mem l with h | h
      · rw [hm] at h; cases h
      · exact hm ▸ h
    exact absurd (hl _ hmem) (by simp [IsLog])
  · -- NaN maximum: impossible (the fold never produces NaN from -INF)
    have hmem : Fl.nan ∈ l := by
      rcases flMax_mem l with h | h
      · rw [hm] at h; cases h
      · exact hm ▸ h
    exact absurd (hl _ hmem) (by simp [IsLog])

theorem isLog_lseSpec (l : List Fl) : IsLog (lseSpec l) := by
  rw [lseSpec]
  by_cases h : (l.map eexpExact).sum = 0 <;> simp [h, IsLog]

theorem isLog_elogsum (l : List Fl) (hl : ∀ x ∈ l, IsLog x) :
    IsLog (elogsum l) := by
  rw [elogsum_eq_lseSpec l hl]
  exact isLog_lseSpec l

/-- In linear space, lse is just a sum: eexp(elogsum v) = sum of eexp v. -/
theorem eexpExact_elogsum (l : List Fl) (hl : ∀ x ∈ l, IsLog x) :
    eexpExact (elogsum l) = (l.map eexpExact).sum := by
  rw [elogsum_eq_lseSpec l hl, lseSpec]
  by_cases h : (l.map eexpExact).sum = 0
  · rw [if_pos h, h]; rfl
  · rw [if_neg h]
    have hpos : 0 < (l.map eexpExact).sum :=
      lt_of_le_of_ne (List.sum_nonneg (fun x hx => by
        rcases List.mem_map.1 hx with ⟨y, _, rfl⟩
        exact eexpExact_nonneg y)) (Ne.symm h)
    exact Real.exp_log hpos

theorem isLog_elogsum_ofFn {N : ℕ} (f : Fin N → Fl) (hf : ∀ i, IsLog (f i)) :
    IsLog (elogsum (List.ofFn f)) := by
  refine isLog_elogsum _ (fun x hx => ?_)
  rcases Set.mem_range.1 ((List.mem_ofFn f x).1 hx) with ⟨i, rfl⟩
  exact hf i

theorem eexpExact_elogsum_ofFn {N : ℕ} (f : Fin N → Fl) (hf : ∀ i, IsLog (f i)) :
    eexpExact (elogsum (List.ofFn f)) = ∑ i, eexpExact (f i) := by
  rw [eexpExact_elogsum _ (fun x hx => by
    rcases Set.mem_range.1 ((List.mem_ofFn f x).1 hx) with ⟨i, rfl⟩
    exact hf i)]
  rw [List.map_ofFn, List.sum_ofFn]
  rfl

/- ------------------------------------------------------------------
   Forward-backward engine (hmm.pyx lines 316-389).
   A sequence of length T is described by its emission log-probability
   matrix lnf (only indices t < T are used); all arrays are in log
   space, with -inf (ninf) standing for the LOG_ZERO sentinel.
   ------------------------------------------------------------------ -/

/-- The ln_alpha buffer filled by `HMM.forward` (hmm.pyx lines 342-349):
row 0 is ln_initial + lnf[0,:], row t+1 is the log-sum over i of
ln_alpha[t,i] + ln_transition[i,j], plus lnf[t+1,j].
`compute_ln_phi` always returns `ln_transition_probs` (lines 298-314),
embedded here as the constant matrix `lnA`. -/
noncomputable def lnalpha {N : ℕ} (lnPi : Fin N → Fl) (lnA : Fin N → Fin N → Fl)
    (lnf : ℕ → Fin N → Fl) : ℕ → Fin N → Fl
  | 0, i => lnPi i + lnf 0 i
  | t + 1, j =>
      elogsum (List.ofFn fun i => lnalpha lnPi lnA lnf t i + lnA i j) + lnf (t + 1) j

/-- The value returned by `HMM.forward` (hmm.pyx line 350):
elogsum of the last ln_alpha row. -/
noncomputable def forwardLL {N : ℕ} (lnPi : Fin N → Fl) (lnA : Fin N → Fin N → Fl)
    (lnf : ℕ → Fin N → Fl) (T : ℕ) : Fl :=
  elogsum (List.ofFn fun i => lnalpha lnPi lnA lnf (T - 1) i)

/-- The ln_beta buffer filled by `HMM.backward` (hmm.pyx lines 379-386),
indexed by the number of steps `s` from the end of the sequence:
`lnbeta lnA lnf T s i` is ln_beta[T-1-s, i].  Step 0 is the all-zero
last row; the recursion adds ln_transition[i,j] + ln_beta[t+1,j] +
lnf[t+1,j] (grouped left-to-right as in the source) and log-sums over j. -/
noncomputable def lnbeta {N : ℕ} (lnA : Fin N → Fin N → Fl)
    (lnf : ℕ → Fin N → Fl) (T : ℕ) : ℕ → Fin N → Fl
  | 0, _ => Fl.fin 0
  | s + 1, i =>
      elogsum (List.ofFn fun j => (lnA i j + lnbeta lnA lnf T s j) + lnf (T - 1 - s) j)

/-- The value returned by `HMM.backward` (hmm.pyx lines 387-389):
elogsum of ln_beta[0,:] + lnf[0,:] + ln_initial (grouped left-to-right
as numpy evaluates it). -/
noncomputable def backwardLL {N : ℕ} (lnPi : Fin N → Fl) (lnA : Fin N → Fin N → Fl)
    (lnf : ℕ → Fin N → Fl) (T : ℕ) : Fl :=
  elogsum (List.ofFn fun i => (lnbeta lnA lnf T (T - 1) i + lnf 0 i) + lnPi i)

theorem isLog_lnalpha {N : ℕ} (lnPi : Fin N → Fl) (lnA : Fin N → Fin N → Fl)
    (lnf : ℕ → Fin N → Fl) (hπ : ∀ i, IsLog (lnPi i))
    (hA : ∀ i j, IsLog (lnA i j)) (hf : ∀ t i, IsLog (lnf t i)) :
    ∀ t i, IsLog (lnalpha lnPi lnA lnf t i) := by
  intro t
  induction t with
  | zero => exact fun i => isLog_add _ _ (hπ i) (hf 0 i)
  | succ t ih =>
      intro j
      exact isLog_add _ _
        (isLog_elogsum_ofFn _ (fun i => isLog_add _ _ (ih i) (hA i j)))
        (hf (t + 1) j)

theorem isLog_lnbeta {N : ℕ} (lnA : Fin N → Fin N → Fl)
    (lnf : ℕ → Fin N → Fl) (T : ℕ)
    (hA : ∀ i j, IsLog (lnA i j)) (hf : ∀ t i, IsLog (lnf t i)) :
    ∀ s i, IsLog (lnbeta lnA lnf T s i) := by
  intro s
  induction s with
  | zero => exact fun i => trivial
  | succ s ih =>
      intro i
      exact isLog_elogsum_ofFn _
        (fun j => isLog_add _ _ (isLog_add _ _ (hA i j) (ih j)) (hf (T - 1 - s) j))

theorem eexp_lnalpha_zero {N : ℕ} (lnPi : Fin N → Fl) (lnA : Fin N → Fin N → Fl)
    (lnf : ℕ → Fin N → Fl) (hπ : ∀ i, IsLog (lnPi i)) (hf : ∀ t i, IsLog (lnf t i))
    (i : Fin N) :
    eexpExact (lnalpha lnPi lnA lnf 0 i) = eexpExact (lnPi i) * eexpExact (lnf 0 i) :=
  eexpExact_add _ _ (hπ i) (hf 0 i)

theorem eexp_lnalpha_succ {N : ℕ} (lnPi : Fin N → Fl) (lnA : Fin N → Fin N → Fl)
    (lnf : ℕ → Fin N → Fl) (hπ : ∀ i, IsLog (lnPi i))
    (hA : ∀ i j, IsLog (lnA i j)) (hf : ∀ t i, IsLog (lnf t i))
    (t : ℕ) (j : Fin N) :
    eexpExact (lnalpha lnPi lnA lnf (t + 1) j) =
      (∑ i, eexpExact (lnalpha lnPi lnA lnf t i) * eexpExact (lnA i j)) *
        eexpExact (lnf (t + 1) j) := by
  have hα := isLog_lnalpha lnPi lnA lnf hπ hA hf
  rw [show lnalpha lnPi lnA lnf (t + 1) j
      = elogsum (List.ofFn fun i => lnalpha lnPi lnA lnf t i + lnA i j) + lnf (t + 1) j
    from rfl]
  rw [eexpExact_add _ _
    (isLog_elogsum_ofFn _ (fun i => isLog_add _ _ (hα t i) (hA i j))) (hf (t + 1) j)]
  rw [eexpExact_elogsum_ofFn _ (fun i => isLog_add _ _ (hα t i) (hA i j))]
  congr 1
  exact Finset.sum_congr rfl (fun i _ => eexpExact_add _ _ (hα t i) (hA i j))

theorem eexp_lnbeta_succ {N : ℕ} (lnA : Fin N → Fin N → Fl)
    (lnf : ℕ → Fin N → Fl) (T : ℕ)
    (hA : ∀ i j, IsLog (lnA i j)) (hf : ∀ t i, IsLog (lnf t i))
    (s : ℕ) (i : Fin N) :
    eexpExact (lnbeta lnA lnf T (s + 1) i) =
      ∑ j, eexpExact (lnA i j) * eexpExact (lnbeta lnA lnf T s j) *
        eexpExact (lnf (T - 1 - s) j) := by
  have hβ := isLog_lnbeta lnA lnf T hA hf
  rw [show lnbeta lnA lnf T (s + 1) i
      = elogsum (List.ofFn fun j => (lnA i j + lnbeta lnA lnf T s j) + lnf (T - 1 - s) j)
    from rfl]
  rw [eexpExact_elogsum_ofFn _
    (fun j => isLog_add _ _ (isLog_add _ _ (hA i j) (hβ s j)) (hf (T - 1 - s) j))]
  refine Finset.sum_congr rfl (fun j _ => ?_)
  rw [eexpExact_add _ _ (isLog_add _ _ (hA i j) (hβ s j)) (hf (T - 1 - s) j),
    eexpExact_add _ _ (hA i j) (hβ s j)]

theorem eexp_lnbeta_zero {N : ℕ} (lnA : Fin N → Fin N → Fl)
    (lnf : ℕ → Fin N → Fl) (T : ℕ) (i : Fin N) :
    eexpExact (lnbeta lnA lnf T 0 i) = 1 := by
  show eexpExact (Fl.fin 0) = 1
  simp [eexpExact]

theorem alpha_beta_step {N : ℕ} (lnPi : Fin N → Fl) (lnA : Fin N → Fin N → Fl)
    (lnf : ℕ → Fin N → Fl) (T : ℕ)
    (hπ : ∀ i, IsLog (lnPi i)) (hA : ∀ i j, IsLog (lnA i j))
    (hf : ∀ t i, IsLog (lnf t i)) (t : ℕ) (ht : t + 1 ≤ T - 1) :
    (∑ j, eexpExact (lnalpha lnPi lnA lnf (t + 1) j) *
        eexpExact (lnbeta lnA lnf T (T - 1 - (t + 1)) j))
    = ∑ i, eexpExact (lnalpha lnPi lnA lnf t i) *
        eexpExact (lnbeta lnA lnf T (T - 1 - t) i) := by
  have h1 : T - 1 - (t + 1) = T - 2 - t := by omega
  have h2 : T - 1 - t = (T - 2 - t) + 1 := by omega
  have h3 : T - 1 - (T - 2 - t) = t + 1 := by omega
  rw [h1, h2]
  calc
    ∑ j, eexpExact (lnalpha lnPi lnA lnf (t + 1) j) *
        eexpExact (lnbeta lnA lnf T (T - 2 - t) j)
      = ∑ j, ((∑ i, eexpExact (lnalpha lnPi lnA lnf t i) * eexpExact (lnA i j)) *
          eexpExact (lnf (t + 1) j)) * eexpExact (lnbeta lnA lnf T (T - 2 - t) j) :=
        Finset.sum_congr rfl (fun j _ => by
          rw [eexp_lnalpha_succ lnPi lnA lnf hπ hA hf t j])
    _ = ∑ j, ∑ i, eexpExact (lnalpha lnPi lnA lnf t i) * eexpExact (lnA i j) *
          eexpExact (lnf (t + 1) j) * eexpExact (lnbeta lnA lnf T (T - 2 - t) j) :=
        Finset.sum_congr rfl (fun j _ => by
          rw [Finset.sum_mul, Finset.sum_mul])
    _ = ∑ i, ∑ j, eexpExact (lnalpha lnPi lnA lnf t i) * eexpExact (lnA i j) *
          eexpExact (lnf (t + 1) j) * eexpExact (lnbeta lnA lnf T (T - 2 - t) j) :=
        Finset.sum_comm
    _ = ∑ i, eexpExact (lnalpha lnPi lnA lnf t i) *
          (∑ j, eexpExact (lnA i j) * eexpExact (lnbeta lnA lnf T (T - 2 - t) j) *
            eexpExact (lnf (t + 1) j)) := by
        refine Finset.sum_congr rfl (fun i _ => ?_)
        rw [Finset.mul_sum]
        exact Finset.sum_congr rfl (fun j _ => by ring)
    _ = ∑ i, eexpExact (lnalpha lnPi lnA lnf t i) *
          eexpExact (lnbeta lnA lnf T ((T - 2 - t) + 1) i) := by
        refine Finset.sum_congr rfl (fun i _ => ?_)
        rw [eexp_lnbeta_succ lnA lnf T hA hf (T - 2 - t) i, h3]

theorem alpha_beta_descent {N : ℕ} (lnPi : Fin N → Fl) (lnA : Fin N → Fin N → Fl)
    (lnf : ℕ → Fin N → Fl) (T : ℕ)
    (hπ : ∀ i, IsLog (lnPi i)) (hA : ∀ i j, IsLog (lnA i j))
    (hf : ∀ t i, IsLog (lnf t i)) :
    ∀ d, d ≤ T - 1 →
      (∑ i, eexpExact (lnalpha lnPi lnA lnf (T - 1 - d) i) *
        eexpExact (lnbeta lnA lnf T (T - 1 - (T - 1 - d)) i))
      = ∑ i, eexpExact (lnalpha lnPi lnA lnf (T - 1) i) *
          eexpExact (lnbeta lnA lnf T (T - 1 - (T - 1)) i) := by
  intro d
  induction d with
  | zero => intro _; rfl
  | succ d ih =>
      intro hd
      have hstep := alpha_beta_step lnPi lnA lnf T hπ hA hf (T - 1 - (d + 1))
        (by omega)
      have he : T - 1 - (d + 1) + 1 = T - 1 - d := by omega
      rw [he] at hstep
      rw [← hstep]
      exact ih (by omega)

/-- C3: in exact arithmetic the forward and backward log-likelihoods of
hmm.pyx (lines 316-350 and 352-389) coincide for every sequence of
length T >= 1 and every model whose log parameters are finite or
LOG_ZERO; consequently they agree within any floating-point tolerance
such as the 1e-6 relative error named by the spec. -/
theorem C3_forward_backward_agree {N : ℕ} (lnPi : Fin N → Fl)
    (lnA : Fin N → Fin N → Fl) (lnf : ℕ → Fin N → Fl) (T : ℕ)
    (hπ : ∀ i, IsLog (lnPi i)) (hA : ∀ i j, IsLog (lnA i j))
    (hf : ∀ t i, IsLog (lnf t i)) (hT : 1 ≤ T) :
    forwardLL lnPi lnA lnf T = backwardLL lnPi lnA lnf T := by
  have hα := isLog_lnalpha lnPi lnA lnf hπ hA hf
  have hβ := isLog_lnbeta lnA lnf T hA hf
  have hinv := alpha_beta_descent lnPi lnA lnf T hπ hA hf (T - 1) (le_refl _)
  have hTT : T - 1 - (T - 1) = 0 := by omega
  rw [hTT] at hinv
  simp only [Nat.sub_zero] at hinv
  -- hinv : ∑ i, a 0 i * b (T-1) i = ∑ i, a (T-1) i * b 0 i
  have hF : eexpExact (forwardLL lnPi lnA lnf T)
      = ∑ i, eexpExact (lnalpha lnPi lnA lnf (T - 1) i) := by
    rw [forwardLL, eexpExact_elogsum_ofFn _ (fun i => hα (T - 1) i)]
  have hB : eexpExact (backwardLL lnPi lnA lnf T)
      = ∑ i, eexpExact (lnbeta lnA lnf T (T - 1) i) * eexpExact (lnf 0 i) *
          eexpExact (lnPi i) := by
    rw [backwardLL, eexpExact_elogsum_ofFn _
      (fun i => isLog_add _ _ (isLog_add _ _ (hβ (T - 1) i) (hf 0 i)) (hπ i))]
    exact Finset.sum_congr rfl (fun i _ => by
      rw [eexpExact_add _ _ (isLog_add _ _ (hβ (T - 1) i) (hf 0 i)) (hπ i),
        eexpExact_add _ _ (hβ (T - 1) i) (hf 0 i)])
  have hkey : eexpExact (forwardLL lnPi lnA lnf T)
      = eexpExact (backwardLL lnPi lnA lnf T) := by
    rw [hF, hB]
    have hF2 : (∑ i, eexpExact (lnalpha lnPi lnA lnf (T - 1) i))
        = ∑ i, eexpExact (lnalpha lnPi lnA lnf (T - 1) i) *
            eexpExact (lnbeta lnA lnf T 0 i) :=
      Finset.sum_congr rfl (fun i _ => by
        rw [eexp_lnbeta_zero lnA lnf T i, mul_one])
    rw [hF2, ← hinv]
    refine Finset.sum_congr rfl (fun i _ => ?_)
    rw [show lnalpha lnPi lnA lnf 0 i = lnPi i + lnf 0 i from rfl,
      eexpExact_add _ _ (hπ i) (hf 0 i)]
    ring
  exact eexpExact_inj _ _
    (isLog_elogsum_ofFn _ (fun i => hα (T - 1) i))
    (isLog_elogsum_ofFn _
      (fun i => isLog_add _ _ (isLog_add _ _ (hβ (T - 1) i) (hf 0 i)) (hπ i)))
    hkey

/-- Concrete one-state model used to instantiate hypothesis-bearing
theorems: uniform start, uniform transition, zero emission log-probability. -/
def pi1 : Fin 1 → Fl := fun _ => Fl.fin 0

/-- Concrete one-state transition matrix, see `pi1`. -/
def A1 : Fin 1 → Fin 1 → Fl := fun _ _ => Fl.fin 0

/-- Concrete emission log-probability matrix, see `pi1`. -/
def f1 : ℕ → Fin 1 → Fl := fun _ _ => Fl.fin 0

/-- Witness for C3 at a concrete one-state, length-1 input. -/
theorem C3_forward_backward_agree_witness :
    forwardLL pi1 A1 f1 1 = backwardLL pi1 A1 f1 1 :=
  C3_forward_backward_agree pi1 A1 f1 1 (fun _ => trivial)
    (fun _ _ => trivial) (fun _ _ => trivial) (le_refl 1)

/-- C2: the forward routine of hmm.pyx (lines 316-350) initializes
ln_alpha[0,j] = ln_initial[j] + lnf[0,j], fills every later row by the
spec's log-sum-exp recursion ln_alpha[t,j] =
logsumexp_i(ln_alpha[t-1,i] + ln_transition[i,j]) + lnf[t,j], and
returns logsumexp of the last row as the total log-likelihood. -/
theorem C2_forward_recursion_matches_spec {N : ℕ} (lnPi : Fin N → Fl)
    (lnA : Fin N → Fin N → Fl) (lnf : ℕ → Fin N → Fl) (T : ℕ)
    (hπ : ∀ i, IsLog (lnPi i)) (hA : ∀ i j, IsLog (lnA i j))
    (hf : ∀ t i, IsLog (lnf t i)) (_hT : 1 ≤ T) :
    (∀ j, lnalpha lnPi lnA lnf 0 j = lnPi j + lnf 0 j)
    ∧ (∀ t j, 1 ≤ t → t ≤ T - 1 →
        lnalpha lnPi lnA lnf t j =
          lseSpec (List.ofFn fun i => lnalpha lnPi lnA lnf (t - 1) i + lnA i j)
            + lnf t j)
    ∧ forwardLL lnPi lnA lnf T =
        lseSpec (List.ofFn fun i => lnalpha lnPi lnA lnf (T - 1) i) := by
  have hα := isLog_lnalpha lnPi lnA lnf hπ hA hf
  refine ⟨fun j => rfl, fun t j ht _ => ?_, ?_⟩
  · obtain ⟨t', rfl⟩ : ∃ t', t = t' + 1 := ⟨t - 1, by omega⟩
    rw [show t' + 1 - 1 = t' from rfl]
    rw [show lnalpha lnPi lnA lnf (t' + 1) j
        = elogsum (List.ofFn fun i => lnalpha lnPi lnA lnf t' i + lnA i j)
            + lnf (t' + 1) j from rfl]
    rw [elogsum_eq_lseSpec _ (fun x hx => by
      rcases Set.mem_range.1 ((List.mem_ofFn _ x).1 hx) with ⟨i, rfl⟩
      exact isLog_add _ _ (hα t' i) (hA i j))]
  · rw [forwardLL, elogsum_eq_lseSpec _ (fun x hx => by
      rcases Set.mem_range.1 ((List.mem_ofFn _ x).1 hx) with ⟨i, rfl⟩
      exact hα (T - 1) i)]

/-- Witness for C2 at a concrete one-state, length-1 input. -/
theorem C2_forward_recursion_matches_spec_witness :
    forwardLL pi1 A1 f1 1 =
      lseSpec (List.ofFn fun i => lnalpha pi1 A1 f1 0 i) :=
  (C2_forward_recursion_matches_spec pi1 A1 f1 1 (fun _ => trivial)
    (fun _ _ => trivial) (fun _ _ => trivial) (le_refl 1)).2.2

theorem foldl_maxStep_replicate_fin (a : ℝ) (k : ℕ) :
    (List.replicate k (Fl.fin a)).foldl Fl.maxStep (Fl.fin a) = Fl.fin a := by
  induction k with
  | zero => rfl
  | succ k ih =>
      rw [List.replicate_succ, List.foldl_cons,
        show Fl.maxStep (Fl.fin a) (Fl.fin a) = Fl.fin a from by
          simp [Fl.maxStep]]
      exact ih

theorem flMax_replicate_fin (a : ℝ) (n : ℕ) (hn : 1 ≤ n) :
    flMax (List.replicate n (Fl.fin a)) = Fl.fin a := by
  obtain ⟨k, rfl⟩ : ∃ k, n = k + 1 := ⟨n - 1, by omega⟩
  rw [flMax, List.replicate_succ, List.foldl_cons,
    show Fl.maxStep Fl.ninf (Fl.fin a) = Fl.fin a from rfl]
  exact foldl_maxStep_replicate_fin a k

/-- C5: the log-sum-exp reduction of hmm.pyx (lines 57-78, with the
maximum computed by lines 38-54) maps n >= 1 copies of a to exactly
a + ln(n) (hence within the 1e-9 tolerance named by the spec), and
short-circuits to LOG_ZERO on any input whose maximum is LOG_ZERO,
that is, on any all-LOG_ZERO (possibly empty) input. -/
theorem C5_elogsum_replicate_and_logzero (n : ℕ) (a : ℝ) (l : List Fl)
    (hn : 1 ≤ n) (hl : ∀ x ∈ l, x = Fl.ninf) :
    elogsum (List.replicate n (Fl.fin a)) = Fl.fin (a + Real.log n)
    ∧ elogsum l = Fl.ninf := by
  constructor
  · rw [elogsum_of_flMax_fin _ a (flMax_replicate_fin a n hn)]
    rw [List.map_replicate]
    rw [show expShift a (Fl.fin a) = 1 from by simp [expShift]]
    rw [List.sum_replicate, nsmul_eq_mul, mul_one, add_comm]
  · exact elogsum_of_flMax_ninf l (foldl_maxStep_all_ninf l Fl.ninf hl)

/-- Witness for C5 with n = 2 copies of 0 and the all-LOG_ZERO list. -/
theorem C5_elogsum_replicate_and_logzero_witness :
    elogsum (List.replicate 2 (Fl.fin 0)) = Fl.fin (0 + Real.log 2)
    ∧ elogsum [Fl.ninf] = Fl.ninf :=
  C5_elogsum_replicate_and_logzero 2 0 [Fl.ninf] (by norm_num)
    (fun x hx => by simpa using hx)

/- ------------------------------------------------------------------
   Baum-Welch M-step for initial and transition probabilities
   (hmm.pyx lines 495-517).
   ------------------------------------------------------------------ -/

/-- The largest finite IEEE double, the value np.nan_to_num substitutes
for +inf (and negated for -inf). -/
def MAXF : ℝ := 1.7976931348623157e308

/-- Elementwise np.nan_to_num (hmm.pyx line 514): NaN becomes 0,
+inf becomes MAXF, -inf becomes -MAXF, finite values are unchanged.
The output array holds only finite doubles. -/
noncomputable def nanToNum : Fl → ℝ
  | .fin x => x
  | .nan => 0
  | .pinf => MAXF
  | .ninf => -MAXF

/-- IEEE double exp on a finite argument: exact above the underflow
threshold, +0 below it.  libc exp returns exactly +0.0 for any argument
at or below -746 (true underflow ends near -745.14); every place where
the embedded code relies on underflow feeds arguments near -MAXF,
astronomically below the threshold, so the exact position of the cutoff
is immaterial. -/
noncomputable def fexp (x : ℝ) : ℝ := if x ≤ -746 then 0 else Real.exp x

/-- Scalar of eexp2d (hmm.pyx lines 81-95): exp(src) if src is not the
LOG_ZERO sentinel, else 0, with IEEE exp modelled by `fexp`.  A +inf or
NaN input would propagate in the real code; those cases do not occur
where this function is applied below (the hypotheses of the theorems
exclude them) and are given the junk value 0. -/
noncomputable def eexp : Fl → ℝ
  | .fin x => fexp x
  | _ => 0

/-- Numerator aggregate for the transition update (hmm.pyx lines
506-507): the slices ln_xi_s[p][1:, k, l] concatenated over all
sequences; a sequence is given as its length T paired with its ln_xi
buffer. -/
noncomputable def transNum {N : ℕ} (xis : List (ℕ × (ℕ → Fin N → Fin N → Fl)))
    (k l : Fin N) : List Fl :=
  (xis.map (fun s => (List.range (s.1 - 1)).map (fun t => s.2 (t + 1) k l))).flatten

/-- Denominator aggregate for the transition update (hmm.pyx lines
508-509): the slices ln_gamma_s[p][:-1, k] concatenated over all
sequences. -/
noncomputable def transDen {N : ℕ} (gammas : List (ℕ × (ℕ → Fin N → Fl)))
    (k : Fin N) : List Fl :=
  (gammas.map (fun s => (List.range (s.1 - 1)).map (fun t => s.2 t k))).flatten

/-- The ln transition re-estimate of hmm.pyx lines 503-512: wherever
the topology mask permits, elogsum(num) - elogsum(den); entries
disallowed by the mask are forced to LOG_ZERO. -/
noncomputable def lnTransUpdate {N : ℕ} (mask : Fin N → Fin N → Bool)
    (xis : List (ℕ × (ℕ → Fin N → Fin N → Fl)))
    (gammas : List (ℕ × (ℕ → Fin N → Fl))) (k l : Fin N) : Fl :=
  if mask k l then elogsum (transNum xis k l) - elogsum (transDen gammas k)
  else Fl.ninf

/-- The ln_transition_probs array stored by hmm.pyx line 514:
np.nan_to_num of the re-estimate (a finite double array). -/
noncomputable def lnTransStored {N : ℕ} (mask : Fin N → Fin N → Bool)
    (xis : List (ℕ × (ℕ → Fin N → Fin N → Fl)))
    (gammas : List (ℕ × (ℕ → Fin N → Fl))) (k l : Fin N) : ℝ :=
  nanToNum (lnTransUpdate mask xis gammas k l)

/-- The linear transition_probs array after hmm.pyx lines 515-516:
eexp2d of the stored ln array.  After nan_to_num the array holds no
LOG_ZERO entry, so eexp2d always takes its exp branch, and exp of a
finite double never returns NaN, so the isnan pass of line 516 is a
no-op. -/
noncomputable def transLinear {N : ℕ} (mask : Fin N → Fin N → Bool)
    (xis : List (ℕ × (ℕ → Fin N → Fin N → Fl)))
    (gammas : List (ℕ × (ℕ → Fin N → Fl))) (k l : Fin N) : ℝ :=
  fexp (lnTransStored mask xis gammas k l)

/-- Row sums used by the normalization of hmm.pyx line 517. -/
noncomputable def rowSumT {N : ℕ} (mask : Fin N → Fin N → Bool)
    (xis : List (ℕ × (ℕ → Fin N → Fin N → Fl)))
    (gammas : List (ℕ × (ℕ → Fin N → Fl))) (k : Fin N) : ℝ :=
  ∑ l, transLinear mask xis gammas k l

/-- The transition_probs array observed after the M-step (hmm.pyx line
517): each row divided by its sum. -/
noncomputable def transProbs {N : ℕ} (mask : Fin N → Fin N → Bool)
    (xis : List (ℕ × (ℕ → Fin N → Fin N → Fl)))
    (gammas : List (ℕ × (ℕ → Fin N → Fl))) (k l : Fin N) : ℝ :=
  transLinear mask xis gammas k l / rowSumT mask xis gammas k

/-- State start probabilities before normalization (hmm.pyx lines
496-498): the sum over sequences of the first gamma row. -/
noncomputable def initNumer {N : ℕ} (gamma0s : List (Fin N → ℝ)) (i : Fin N) : ℝ :=
  (gamma0s.map (fun g => g i)).sum

/-- np.sum over the accumulated start-probability vector (line 499). -/
noncomputable def initTotal {N : ℕ} (gamma0s : List (Fin N → ℝ)) : ℝ :=
  ∑ i, initNumer gamma0s i

/-- The initial_probs vector observed after the M-step (hmm.pyx line
499): the accumulated vector divided by its total sum. -/
noncomputable def initialProbs {N : ℕ} (gamma0s : List (Fin N → ℝ)) (i : Fin N) : ℝ :=
  initNumer gamma0s i / initTotal gamma0s

theorem MAXF_large : (746 : ℝ) ≤ MAXF := by
  rw [MAXF]; norm_num

theorem fexp_nonneg (x : ℝ) : 0 ≤ fexp x := by
  rw [fexp]
  by_cases h : x ≤ -746
  · rw [if_pos h]
  · rw [if_neg h]; exact (Real.exp_pos x).le

theorem fexp_neg_MAXF : fexp (-MAXF) = 0 := by
  rw [fexp, if_pos (by linarith [MAXF_large])]

/-- C1: after every Baum-Welch M-step (hmm.pyx lines 495-517), every
transition entry whose topology-mask entry is false is exactly 0, every
row of the transition matrix sums exactly to 1, and the initial
probability vector sums exactly to 1 (hence both sums are within the
spec's 1e-9 tolerance); the hypotheses state that each linear row sum
and the accumulated gamma mass are positive, which holds whenever the
E-step leaves any posterior mass in each row. -/
theorem C1_mask_zero_and_rows_normalized {N : ℕ} (mask : Fin N → Fin N → Bool)
    (xis : List (ℕ × (ℕ → Fin N → Fin N → Fl)))
    (gammas : List (ℕ × (ℕ → Fin N → Fl))) (gamma0s : List (Fin N → ℝ))
    (hrow : ∀ k, 0 < rowSumT mask xis gammas k)
    (htot : 0 < initTotal gamma0s) :
    (∀ k l, mask k l = false → transProbs mask xis gammas k l = 0)
    ∧ (∀ k, ∑ l, transProbs mask xis gammas k l = 1)
    ∧ (∑ i, initialProbs gamma0s i = 1) := by
  refine ⟨fun k l hkl => ?_, fun k => ?_, ?_⟩
  · rw [transProbs, transLinear, lnTransStored, lnTransUpdate,
      if_neg (by rw [hkl]; exact Bool.false_ne_true)]
    rw [show nanToNum Fl.ninf = -MAXF from rfl, fexp_neg_MAXF, zero_div]
  · rw [show (∑ l, transProbs mask xis gammas k l)
        = (∑ l, transLinear mask xis gammas k l) / rowSumT mask xis gammas k from by
      rw [Finset.sum_div]; rfl]
    rw [show (∑ l, transLinear mask xis gammas k l) = rowSumT mask xis gammas k from rfl]
    exact div_self (ne_of_gt (hrow k))
  · rw [show (∑ i, initialProbs gamma0s i)
        = (∑ i, initNumer gamma0s i) / initTotal gamma0s from by
      rw [Finset.sum_div]; rfl]
    rw [show (∑ i, initNumer gamma0s i) = initTotal gamma0s from rfl]
    exact div_self (ne_of_gt htot)

theorem elogsum_single_fin (a : ℝ) : elogsum [Fl.fin a] = Fl.fin a := by
  rw [elogsum_of_flMax_fin [Fl.fin a] a rfl]
  simp [expShift, sub_self, Real.exp_zero, Real.log_one]

/-- A linear-topology-style mask on two states: k -> l allowed iff k <= l. -/
def mask2 : Fin 2 → Fin 2 → Bool := fun k l => decide (k ≤ l)

/-- Concrete per-sequence ln_xi buffer (one sequence of length 2). -/
def xiW : List (ℕ × (ℕ → Fin 2 → Fin 2 → Fl)) := [(2, fun _ _ _ => Fl.fin 0)]

/-- Concrete per-sequence ln_gamma buffer (one sequence of length 2). -/
def gammaW : List (ℕ × (ℕ → Fin 2 → Fl)) := [(2, fun _ _ => Fl.fin 0)]

/-- Concrete linear gamma first rows for the initial-probability update. -/
noncomputable def gamma0W : List (Fin 2 → ℝ) := [fun _ => (1 : ℝ) / 2]

theorem transLinear_witness_eval (k l : Fin 2) :
    transLinear mask2 xiW gammaW k l = if mask2 k l then 1 else 0 := by
  rw [transLinear, lnTransStored, lnTransUpdate]
  by_cases h : mask2 k l
  · rw [if_pos h, if_pos h]
    rw [show transNum xiW k l = [Fl.fin 0] from by
      simp [transNum, xiW, show List.range 1 = [0] from rfl]]
    rw [show transDen gammaW k = [Fl.fin 0] from by
      simp [transDen, gammaW, show List.range 1 = [0] from rfl]]
    rw [elogsum_single_fin, show Fl.fin 0 - Fl.fin 0 = Fl.fin 0 from by
      rw [fin_sub_fin, sub_self]]
    rw [show nanToNum (Fl.fin 0) = 0 from rfl, fexp, if_neg (by norm_num),
      Real.exp_zero]
  · rw [if_neg h, if_neg h, show nanToNum Fl.ninf = -MAXF from rfl, fexp_neg_MAXF]

/-- Witness for C1: a two-state model with the mask allowing k -> l only
for k <= l, one sequence of length 2 with all posteriors equal, showing
the hypotheses are satisfiable and the invariant concrete: the masked
entry (1,0) is 0, row 0 sums to 1, and the initial vector sums to 1. -/
theorem C1_mask_zero_and_rows_normalized_witness :
    transProbs mask2 xiW gammaW 1 0 = 0
    ∧ (∑ l, transProbs mask2 xiW gammaW 0 l) = 1
    ∧ (∑ i, initialProbs gamma0W i) = 1 := by
  have h := C1_mask_zero_and_rows_normalized mask2 xiW gammaW gamma0W
    (fun k => by
      rw [rowSumT, Fin.sum_univ_two, transLinear_witness_eval,
        transLinear_witness_eval]
      fin_cases k <;> norm_num [mask2])
    (by
      rw [initTotal, Fin.sum_univ_two]
      norm_num [initNumer, gamma0W])
  exact ⟨h.1 1 0 (by decide), h.2.1 0, h.2.2⟩

/- ------------------------------------------------------------------
   Log-space mirror consistency (claim C8): property setters
   (hmm.pyx lines 663-677) versus the M-step (lines 502-517).
   ------------------------------------------------------------------ -/

/-- Scalar of elog1d / elog2d (hmm.pyx lines 116-147): log(src) if
src is not 0, else LOG_ZERO.  libc log of a negative argument returns
NaN. -/
noncomputable def elog (x : ℝ) : Fl :=
  if x = 0 then Fl.ninf else if x < 0 then Fl.nan else Fl.fin (Real.log x)

/-- The `pi` property setter (hmm.pyx lines 663-669): stores the linear
array and recomputes the log mirror with elog1d. -/
noncomputable def setPi {N : ℕ} (arr : Fin N → ℝ) : (Fin N → ℝ) × (Fin N → Fl) :=
  (arr, fun i => elog (arr i))

/-- The `a` property setter (hmm.pyx lines 671-677): stores the linear
matrix and recomputes the log mirror with elog2d. -/
noncomputable def setA {N : ℕ} (arr : Fin N → Fin N → ℝ) :
    (Fin N → Fin N → ℝ) × (Fin N → Fin N → Fl) :=
  (arr, fun i j => elog (arr i j))

/-- ln_initial_probs as recomputed by the M-step (hmm.pyx line 500):
elog1d of the freshly normalized initial vector. -/
noncomputable def lnInitStored {N : ℕ} (gamma0s : List (Fin N → ℝ)) (i : Fin N) : Fl :=
  elog (initialProbs gamma0s i)

theorem eexp_elog (x : ℝ) (hx : x = 0 ∨ Real.exp (-746) < x) :
    eexp (elog x) = x ∧ (x = 0 → elog x = Fl.ninf) := by
  rcases hx with h | h
  · subst h
    exact ⟨by rw [elog, if_pos rfl]; rfl, fun _ => by rw [elog, if_pos rfl]⟩
  · have hx0 : 0 < x := lt_trans (Real.exp_pos _) h
    rw [elog, if_neg (ne_of_gt hx0), if_neg (not_lt.mpr hx0.le)]
    refine ⟨?_, fun h0 => absurd h0 (ne_of_gt hx0)⟩
    rw [show eexp (Fl.fin (Real.log x)) = fexp (Real.log x) from rfl, fexp,
      if_neg (not_le.mpr (by linarith [(Real.lt_log_iff_exp_lt hx0).mpr h]))]
    exact Real.exp_log hx0

/-- Mask allowing every transition of a one-state model. -/
def maskAll1 : Fin 1 → Fin 1 → Bool := fun _ _ => true

/-- One sequence of length 2 whose pairwise posterior buffer is
identically e (ln value 1). -/
def xiC8 : List (ℕ × (ℕ → Fin 1 → Fin 1 → Fl)) := [(2, fun _ _ _ => Fl.fin 1)]

/-- One sequence of length 2 whose singleton posterior buffer is
identically 1 (ln value 0). -/
def gammaC8 : List (ℕ × (ℕ → Fin 1 → Fl)) := [(2, fun _ _ => Fl.fin 0)]

theorem lnTransStored_C8_eval : lnTransStored maskAll1 xiC8 gammaC8 0 0 = 1 := by
  rw [lnTransStored, lnTransUpdate, if_pos (show maskAll1 0 0 = true from rfl)]
  rw [show transNum xiC8 0 0 = [Fl.fin 1] from by
    simp [transNum, xiC8, show List.range 1 = [0] from rfl]]
  rw [show transDen gammaC8 0 = [Fl.fin 0] from by
    simp [transDen, gammaC8, show List.range 1 = [0] from rfl]]
  rw [elogsum_single_fin, elogsum_single_fin, fin_sub_fin]
  norm_num [nanToNum]

theorem fexp_one_pos : 0 < fexp 1 := by
  rw [fexp, if_neg (by norm_num)]
  exact Real.exp_pos 1

/-- C8 counterexample: after the Baum-Welch M-step embedded from
hmm.pyx lines 502-517, with one allowed one-state transition whose
aggregated log numerator is 1 and log denominator is 0, the stored log
mirror holds ln value 1 while the observable linear transition_probs
entry is the row-normalized value 1, and eexp(1) = e strictly exceeds
it: line 517 renormalizes the linear matrix without refreshing the log
mirror, refuting the claimed invariant at a caller-observable point
(after a Baum-Welch iteration). -/
theorem C8_mirror_counterexample :
    transProbs maskAll1 xiC8 gammaC8 0 0
      < eexp (Fl.fin (lnTransStored maskAll1 xiC8 gammaC8 0 0)) := by
  have h2 : transProbs maskAll1 xiC8 gammaC8 0 0 = 1 := by
    rw [transProbs, rowSumT, Fin.sum_univ_one, transLinear, lnTransStored_C8_eval]
    exact div_self (ne_of_gt fexp_one_pos)
  rw [h2, lnTransStored_C8_eval]
  rw [show eexp (Fl.fin 1) = fexp 1 from rfl, fexp, if_neg (by norm_num)]
  have h3 : Real.exp 0 < Real.exp 1 := Real.exp_lt_exp.mpr (by norm_num)
  rw [Real.exp_zero] at h3
  exact h3

/-- C8 amended: the mirror-consistency invariant holds at the points
where the code actually recomputes a mirror — after a pi or a property
assignment (hmm.pyx lines 663-677) and, for the initial vector only,
after the M-step recomputation of line 500 — for nonnegative arrays
whose positive entries exceed exp(-746) (every positive IEEE double
does): elementwise eexp(ln_x) = x and zero entries are stored as the
LOG_ZERO sentinel.  After the M-step the transition mirror is NOT
consistent (see the counterexample): line 517 renormalizes the linear
matrix only, and masked entries hold -MAX_FLOAT rather than LOG_ZERO
after line 514. -/
theorem C8_setters_keep_mirrors_consistent {N : ℕ} (p : Fin N → ℝ)
    (a : Fin N → Fin N → ℝ) (gamma0s : List (Fin N → ℝ))
    (hp : ∀ i, p i = 0 ∨ Real.exp (-746) < p i)
    (ha : ∀ i j, a i j = 0 ∨ Real.exp (-746) < a i j)
    (hg : ∀ i, initialProbs gamma0s i = 0 ∨
      Real.exp (-746) < initialProbs gamma0s i) :
    (∀ i, eexp ((setPi p).2 i) = (setPi p).1 i
      ∧ (p i = 0 → (setPi p).2 i = Fl.ninf))
    ∧ (∀ i j, eexp ((setA a).2 i j) = (setA a).1 i j
      ∧ (a i j = 0 → (setA a).2 i j = Fl.ninf))
    ∧ (∀ i, eexp (lnInitStored gamma0s i) = initialProbs gamma0s i
      ∧ (initialProbs gamma0s i = 0 → lnInitStored gamma0s i = Fl.ninf)) :=
  ⟨fun i => eexp_elog (p i) (hp i),
   fun i j => eexp_elog (a i j) (ha i j),
   fun i => eexp_elog (initialProbs gamma0s i) (hg i)⟩

/-- Concrete start vector assigned through the pi setter. -/
noncomputable def piSetW : Fin 2 → ℝ := fun i => if i = 0 then 0 else 1

/-- Concrete transition matrix assigned through the a setter. -/
noncomputable def ASetW : Fin 2 → Fin 2 → ℝ := fun i j => if i = j then 1 else 0

theorem exp_neg746_lt_one : Real.exp (-746) < 1 := by
  rw [show (1 : ℝ) = Real.exp 0 from (Real.exp_zero).symm]
  exact Real.exp_lt_exp.mpr (by norm_num)

theorem exp_neg746_lt_half : Real.exp (-746) < 1 / 2 := by
  have h2 : (2 : ℝ) < Real.exp 1 := by linarith [Real.exp_one_gt_d9]
  have hneg : Real.exp (-1) < 1 / 2 := by
    rw [Real.exp_neg, inv_eq_one_div]
    exact one_div_lt_one_div_of_lt (by norm_num) h2
  calc Real.exp (-746) < Real.exp (-1) := Real.exp_lt_exp.mpr (by norm_num)
    _ < 1 / 2 := hneg

theorem initialProbs_gamma0W_eval (i : Fin 2) : initialProbs gamma0W i = 1 / 2 := by
  rw [initialProbs, initTotal, Fin.sum_univ_two]
  norm_num [initNumer, gamma0W]

/-- Witness for the amended C8 theorem at concrete assigned arrays. -/
theorem C8_setters_keep_mirrors_consistent_witness :
    eexp ((setPi piSetW).2 1) = (setPi piSetW).1 1
    ∧ (setPi piSetW).2 0 = Fl.ninf
    ∧ eexp ((setA ASetW).2 0 0) = (setA ASetW).1 0 0
    ∧ eexp (lnInitStored gamma0W 0) = initialProbs gamma0W 0 := by
  have h := C8_setters_keep_mirrors_consistent piSetW ASetW gamma0W
    (fun i => by
      by_cases h : i = 0
      · exact Or.inl (by simp [piSetW, h])
      · exact Or.inr (by simp [piSetW, h, exp_neg746_lt_one]))
    (fun i j => by
      by_cases h : i = j
      · exact Or.inr (by simp [ASetW, h, exp_neg746_lt_one])
      · exact Or.inl (by simp [ASetW, h]))
    (fun i => Or.inr (by rw [initialProbs_gamma0W_eval]; exact exp_neg746_lt_half))
  exact ⟨(h.1 1).1, (h.1 0).2 (by simp [piSetW]), (h.2.1 0 0).1, (h.2.2 0).1⟩

/- ------------------------------------------------------------------
   Baum-Welch convergence check (hmm.pyx lines 466-481), claim C4.
   The convergence arithmetic involves no transcendental functions,
   so it is modelled over the rationals for exact decidable
   evaluation.
   ------------------------------------------------------------------ -/

/-- A C-style cast of a double to long, as written `<long>eps` in
hmm.pyx line 479: truncation toward zero. -/
def ctruncLong (e : ℚ) : ℤ := if 0 ≤ e then ⌊e⌋ else ⌈e⌉

/-- The break condition of hmm.pyx line 479: `np.abs(dF) < <long>eps`.
The caller-supplied floating-point eps is cast to a C long (truncated
toward zero) before the comparison. -/
def bwBreak (eps dF : ℚ) : Bool := decide (|dF| < ((ctruncLong eps : ℤ) : ℚ))

/-- The iteration control of baum_welch (hmm.pyx lines 466-481): old_F
starts at 1.0e20; each pass reads this iteration's F = -sum(lnP) from
the stream `F`, breaks after its E-step when `np.abs(F - old_F) <
<long>eps`, and otherwise iterates, for at most the given number of
remaining passes.  The result counts the E-step passes executed. -/
def bwIters (F : ℕ → ℚ) (eps : ℚ) : ℕ → ℚ → ℕ
  | 0, _ => 0
  | n + 1, oldF =>
      if bwBreak eps (F 0 - oldF) then 1
      else 1 + bwIters (fun k => F (k + 1)) eps n (F 0)

/-- Entry point of the iteration-control model: max_n_iter passes
starting from old_F = 1.0e20 (hmm.pyx line 466). -/
def baumWelchIters (F : ℕ → ℚ) (eps : ℚ) (maxIter : ℕ) : ℕ :=
  bwIters F eps maxIter ((10 : ℚ) ^ 20)

/-- C4 (code bug): with the default eps = 1e-4 (or any eps below 1) the
cast `<long>eps` in hmm.pyx line 479 truncates eps to 0, so the break
condition compares |dF| < 0 and never fires: first, no dF whatsoever
satisfies the coded break condition at eps = 1e-4; second, a concrete
run whose second pass changes F by only 1e-5 — strictly below eps, so
the claim requires stopping after the second E-step — executes all
3 = max_n_iter passes. -/
theorem ctrunc_eps_default : ctruncLong (1 / 10000) = 0 := by
  rw [ctruncLong, if_pos (by norm_num)]
  rw [Int.floor_eq_zero_iff, Set.mem_Ico]
  norm_num

theorem bwBreak_default_false (dF : ℚ) : bwBreak (1 / 10000) dF = false := by
  rw [bwBreak, ctrunc_eps_default]
  exact decide_eq_false (by push_cast; exact not_lt.mpr (abs_nonneg dF))

theorem C4_convergence_check_never_fires :
    (∀ dF : ℚ, bwBreak (1 / 10000) dF = false)
    ∧ |((5 : ℚ) + 1 / 100000) - 5| < 1 / 10000
    ∧ baumWelchIters (fun n => if n = 0 then (5 : ℚ) else 5 + 1 / 100000)
        (1 / 10000) 3 = 3 := by
  refine ⟨bwBreak_default_false, ?_, ?_⟩
  · rw [show ((5 : ℚ) + 1 / 100000) - 5 = 1 / 100000 from by ring,
      abs_of_pos (by norm_num)]
    norm_num
  · have hb : ∀ dF : ℚ, bwBreak (10000 : ℚ)⁻¹ dF = false := fun dF => by
      rw [show ((10000 : ℚ))⁻¹ = 1 / 10000 from by norm_num]
      exact bwBreak_default_false dF
    rw [baumWelchIters]
    simp [bwIters, hb]

/- ------------------------------------------------------------------
   GHMM emission M-step (hmm.pyx lines 754-785), claim C6.  The update
   is rational arithmetic, modelled over ℚ for decidable evaluation;
   a NaN entry of a parameter array is modelled as `none`.
   ------------------------------------------------------------------ -/

/-- Scalar of GHMM.nan_to_zeros (hmm.pyx lines 754-756):
`mu[np.isnan(mu)] = 0` — a NaN entry becomes 0, others are kept. -/
def nan_to_zeros (v : Option ℚ) : ℚ := v.getD 0

/-- The mean update for one state (hmm.pyx lines 778-784):
temp = np.dot(posteriors, X) * norm, with norm = 1/post_sum if the
posterior mass is nonzero and 1 otherwise. -/
def updateMu {T D : ℕ} (post : Fin T → ℚ) (X : Fin T → Fin D → ℚ) (j : Fin D) : ℚ :=
  (∑ t, post t * X t j) *
    (if (∑ t, post t) ≠ 0 then 1 / (∑ t, post t) else 1)

/-- The covariance update for one state (hmm.pyx lines 769-776):
sigma[k,j,l] = sum_t diff[t,j] * diff[t,l] * posteriors[t], computed
from the state's pre-update mean (sigma is rewritten before mu). -/
def updateSigma {T D : ℕ} (post : Fin T → ℚ) (X : Fin T → Fin D → ℚ)
    (mu0 : Fin D → ℚ) (j l : Fin D) : ℚ :=
  ∑ t, (X t j - mu0 j) * (X t l - mu0 l) * post t

/-- GHMM.update_emission_params restricted to one state k (hmm.pyx
lines 758-785): nan_to_zeros on entry (the old covariance is never
read, only overwritten), the covariance update using the old mean,
then the mean update.  The trailing nan_to_zeros is a no-op in exact
arithmetic because the guarded norm produces no NaN. -/
def updateState {T D : ℕ} (oldMu : Fin D → Option ℚ)
    (post : Fin T → ℚ) (X : Fin T → Fin D → ℚ) :
    (Fin D → ℚ) × (Fin D → Fin D → ℚ) :=
  (fun j => updateMu post X j,
   fun j l => updateSigma post X (fun j' => nan_to_zeros (oldMu j')) j l)

/-- C6 counterexample: one observation X = [[3]], a state whose
posterior weight is identically 0 (total posterior mass 0), previous
mean 5: the update of hmm.pyx lines 758-785 moves the mean to 0
instead of leaving it at the previous value 5; and nan_to_zeros
replaces a NaN entry with 0, not with any previous value. -/
theorem C6_starved_state_not_retained_counterexample :
    (∑ t : Fin 1, (fun _ : Fin 1 => (0 : ℚ)) t) = 0
    ∧ (updateState (T := 1) (D := 1) (fun _ => some 5)
        (fun _ => 0) (fun _ _ => 3)).1 0 = 0
    ∧ (updateState (T := 1) (D := 1) (fun _ => some 5)
        (fun _ => 0) (fun _ _ => 3)).1 0 < 5
    ∧ nan_to_zeros none = 0 := by
  have hmu : (updateState (T := 1) (D := 1) (fun _ => some 5)
      (fun _ => 0) (fun _ _ => 3)).1 0 = 0 := by
    show updateMu (T := 1) (D := 1) (fun _ => 0) (fun _ _ => 3) 0 = 0
    simp [updateMu]
  exact ⟨by simp, hmu, by rw [hmu]; norm_num, rfl⟩

/-- C6 amended: when a state's posterior weights are all zero, the
update of hmm.pyx lines 758-785 sets the state's mean and covariance
to 0 — the norm falls back to 1 and the zero-weighted sums vanish —
rather than retaining the previous parameters, and a NaN parameter
entry is replaced by 0.  (The retain-previous fallback described by
the spec exists only in the older ArchMM/Cyfiles/HMM.pyx variant.) -/
theorem C6_zero_mass_zeroes_params {T D : ℕ} (oldMu : Fin D → Option ℚ)
    (post : Fin T → ℚ) (X : Fin T → Fin D → ℚ)
    (hpost : ∀ t, post t = 0) :
    (∀ j, (updateState oldMu post X).1 j = 0)
    ∧ (∀ j l, (updateState oldMu post X).2 j l = 0)
    ∧ nan_to_zeros none = 0 := by
  refine ⟨fun j => ?_, fun j l => ?_, rfl⟩
  · show updateMu post X j = 0
    rw [updateMu, show (∑ t, post t * X t j) = 0 from by
      simp [hpost]]
    rw [zero_mul]
  · show updateSigma post X (fun j' => nan_to_zeros (oldMu j')) j l = 0
    rw [updateSigma]
    simp [hpost]

/-- Witness for the amended C6 theorem at a concrete starved state. -/
theorem C6_zero_mass_zeroes_params_witness :
    (updateState (T := 1) (D := 1) (fun _ => some 5)
        (fun _ => 0) (fun _ _ => 3)).1 0 = 0
    ∧ (updateState (T := 1) (D := 1) (fun _ => some 5)
        (fun _ => 0) (fun _ _ => 3)).2 0 0 = 0
    ∧ nan_to_zeros none = 0 := by
  have h := C6_zero_mass_zeroes_params (T := 1) (D := 1) (fun _ => some 5)
    (fun _ => 0) (fun _ _ => 3) (fun _ => rfl)
  exact ⟨h.1 0, h.2.1 0 0, h.2.2⟩

/- ------------------------------------------------------------------
   Missing-value emission support (hmm.pyx lines 284-293), claim C9.
   An observation entry is `none` when the stored double is NaN.  The
   per-row function g stands for the variant's emission_log_proba,
   which every variant in hmm.pyx computes row by row (for GHMM each
   row k of lnf is gaussian_log_proba of the row's observation;
   gaussian_log_proba itself lives in archmm/stats, outside src/, and
   per spec section 4.3 is the per-timestep, per-state log-likelihood).
   ------------------------------------------------------------------ -/

/-- The observed flag of hmm.pyx line 290: a timestep is observed iff
none of its features is NaN (`~np.any(np.isnan(X), axis=1)`). -/
def observedRow {D : ℕ} (x : Fin D → Option ℝ) : Bool :=
  (List.finRange D).all (fun d => (x d).isSome)

/-- The numeric values of an observed row (a `none` entry cannot occur
on a row with `observedRow` true; such entries default to 0). -/
def stripRow {D : ℕ} (x : Fin D → Option ℝ) : Fin D → ℝ :=
  fun d => (x d).getD 0

/-- The boolean mask `observed` of hmm.pyx line 290 as the list of
observed timestep indices among 0..T-1. -/
def obsIndices {D : ℕ} (X : ℕ → Fin D → Option ℝ) (T : ℕ) : List ℕ :=
  (List.range T).filter (fun t => observedRow (X t))

/-- emission_log_proba_with_nan_support for a missing_values=True model
(hmm.pyx lines 284-293): the emission rows are computed on the
compacted array X[observed] by the row-wise emission function g and
scattered back to the observed positions (the fancy indexing
`lnf[observed] = self.emission_log_proba(X[observed])`), and every
unobserved row is set to 0.0. -/
noncomputable def lnfWithNan {N D : ℕ} (g : (Fin D → ℝ) → Fin N → ℝ)
    (X : ℕ → Fin D → Option ℝ) (T : ℕ) : ℕ → Fin N → ℝ :=
  fun t k =>
    if observedRow (X t) then
      ((obsIndices X T).map (fun u => g (stripRow (X u)))).getD
        ((obsIndices X T).indexOf t) (fun _ => 0) k
    else 0

/-- C9: under missing_values=True, every timestep containing a NaN
marker receives the uniformly zero emission log-probability row
(contributing no evidence), and every fully observed timestep receives
exactly the row the variant's row-wise emission_log_proba computes for
its observation. -/
theorem C9_nan_rows_zero_observed_rows_emission {N D : ℕ}
    (g : (Fin D → ℝ) → Fin N → ℝ) (X : ℕ → Fin D → Option ℝ)
    (T t : ℕ) (k : Fin N) (ht : t < T) :
    (observedRow (X t) = false → lnfWithNan g X T t k = 0)
    ∧ (observedRow (X t) = true → lnfWithNan g X T t k = g (stripRow (X t)) k) := by
  constructor
  · intro hobs
    rw [lnfWithNan, if_neg (by rw [hobs]; exact Bool.false_ne_true)]
  · intro hobs
    rw [lnfWithNan, if_pos hobs]
    have hmem : t ∈ obsIndices X T :=
      List.mem_filter.2 ⟨List.mem_range.2 ht, hobs⟩
    have hidx : (obsIndices X T).indexOf t < (obsIndices X T).length :=
      List.indexOf_lt_length.2 hmem
    rw [List.getD_eq_getElem _ _ (by
      rw [List.length_map]; exact hidx)]
    rw [List.getElem_map]
    rw [List.getElem_indexOf hidx]

/-- Row-wise emission function used by the C9 witness. -/
def gC9 : (Fin 1 → ℝ) → Fin 1 → ℝ := fun x _ => x 0

/-- Observation sequence used by the C9 witness: timestep 0 observed
with value 3, timestep 1 missing. -/
def XC9 : ℕ → Fin 1 → Option ℝ := fun t _ => if t = 0 then some (3 : ℝ) else none

/-- Witness for C9: two timesteps in one feature dimension — timestep 0
observed with value 3 receives its emission row, timestep 1 missing
receives the zero row. -/
theorem C9_nan_rows_zero_observed_rows_emission_witness :
    lnfWithNan gC9 XC9 2 0 0 = gC9 (stripRow (XC9 0)) 0
    ∧ lnfWithNan gC9 XC9 2 1 0 = 0 :=
  ⟨(C9_nan_rows_zero_observed_rows_emission gC9 XC9 2 0 0 (by norm_num)).2 rfl,
   (C9_nan_rows_zero_observed_rows_emission gC9 XC9 2 1 0 (by norm_num)).1 rfl⟩

/- ------------------------------------------------------------------
   Posterior decoding and scoring entry points
   (hmm.pyx lines 391-449, 540-619), claims C7 and C10.
   ------------------------------------------------------------------ -/

/-- IEEE multiplication on `Fl` (exact on finite values): NaN is
absorbing, 0 * inf = NaN, otherwise infinities carry the sign
product. -/
noncomputable def Fl.mul : Fl → Fl → Fl
  | .nan, _ => .nan
  | _, .nan => .nan
  | .pinf, .pinf => .pinf
  | .pinf, .ninf => .ninf
  | .ninf, .pinf => .ninf
  | .ninf, .ninf => .pinf
  | .pinf, .fin b => if b = 0 then .nan else if 0 < b then .pinf else .ninf
  | .fin a, .pinf => if a = 0 then .nan else if 0 < a then .pinf else .ninf
  | .ninf, .fin b => if b = 0 then .nan else if 0 < b then .ninf else .pinf
  | .fin a, .ninf => if a = 0 then .nan else if 0 < a then .ninf else .pinf
  | .fin a, .fin b => .fin (a * b)

/-- IEEE negation on `Fl`. -/
noncomputable def Fl.neg : Fl → Fl
  | .fin a => .fin (-a)
  | .ninf => .pinf
  | .pinf => .ninf
  | .nan => .nan

/-- ln_gamma of the E-step (hmm.pyx lines 446-448):
ln_alpha[t,i] + ln_beta[t,i] - lnP_f, with lnP_f the forward
log-likelihood computed by the same E-step (line 430). -/
noncomputable def lnGamma {N : ℕ} (lnPi : Fin N → Fl) (lnA : Fin N → Fin N → Fl)
    (lnf : ℕ → Fin N → Fl) (T : ℕ) (t : ℕ) (i : Fin N) : Fl :=
  (lnalpha lnPi lnA lnf t i + lnbeta lnA lnf T (T - 1 - t) i)
    - forwardLL lnPi lnA lnf T

/-- gamma in linear space, as computed by log_likelihood via eexp2d
(hmm.pyx lines 550-551). -/
noncomputable def gammaLin {N : ℕ} (lnPi : Fin N → Fl) (lnA : Fin N → Fin N → Fl)
    (lnf : ℕ → Fin N → Fl) (T : ℕ) (t : ℕ) (i : Fin N) : ℝ :=
  eexp (lnGamma lnPi lnA lnf T t i)

/-- One update step of numpy argmax: keep the current best index unless
the new entry is strictly larger (ties keep the first maximum). -/
noncomputable def amStep {N : ℕ} (row : Fin N → ℝ) :
    Option (Fin N) → Fin N → Option (Fin N)
  | none, i => some i
  | some b, i => if row b < row i then some i else some b

/-- numpy argmax over one gamma row (`gamma.argmax(axis=1)` per
timestep, hmm.pyx line 569): the first index attaining the maximum,
returned as the stored integer. -/
noncomputable def argmaxRow {N : ℕ} (row : Fin N → ℝ) : ℕ :=
  (((List.finRange N).foldl (amStep row) none).map Fin.val).getD 0

theorem foldl_amStep_some {N : ℕ} (row : Fin N → ℝ) (l : List (Fin N)) (b : Fin N) :
    ∃ c, l.foldl (amStep row) (some b) = some c := by
  induction l generalizing b with
  | nil => exact ⟨b, rfl⟩
  | cons x xs ih =>
      rw [List.foldl_cons]
      by_cases h : row b < row x
      · rw [show amStep row (some b) x = some x from by rw [amStep, if_pos h]]
        exact ih x
      · rw [show amStep row (some b) x = some b from by rw [amStep, if_neg h]]
        exact ih b

theorem argmaxRow_lt {N : ℕ} (row : Fin N → ℝ) (hN : 0 < N) :
    argmaxRow row < N := by
  rcases hl : List.finRange N with _ | ⟨a, l⟩
  · have hN0 : N = 0 := by
      have := congrArg List.length hl
      simpa using this
    omega
  · rw [argmaxRow, hl, List.foldl_cons,
      show amStep row none a = some a from rfl]
    rcases foldl_amStep_some row l a with ⟨c, hc⟩
    rw [hc]
    exact c.isLt

/-- Error taxonomy observable from the embedded entry points. -/
inductive HmmErr where
  | untrainedModel
  | uninitializedAttr
  | indexError
deriving DecidableEq

/-- Information criteria accepted by score (hmm.pyx lines 609-616,
after lower/strip normalization of the argument string; an unrecognized
string raises UnknownCriterion, which no claim exercises). -/
inductive Criterion where
  | aic
  | aicc
  | bic
  | negloglh

/-- The mutable model state visible to decode / score for a Gaussian
HMM.  n_features is -1 until fit completes (hmm.pyx lines 229-251).
Modelled from the spec: the emission parameters mu / sigma (assigned
only inside estimate_params, which fit calls) determine the row-wise
per-state log-likelihood gaussian_log_proba of archmm/stats (outside
src/); they are summarized here by that induced function, present iff
the attributes have been assigned.  On an untrained model the mu
memoryview was never assigned, and touching it raises an
attribute/uninitialized-memoryview error, modelled as
`uninitializedAttr`. -/
structure GModelState (N D : ℕ) where
  n_features : ℤ
  lnPi : Fin N → Fl
  lnA : Fin N → Fin N → Fl
  emission : Option ((Fin D → ℝ) → Fin N → ℝ)

/-- HMM.is_trained (hmm.pyx lines 250-251). -/
def is_trained {N D : ℕ} (m : GModelState N D) : Bool := m.n_features != -1

/-- A sequence: its observation rows and its length. -/
structure Seq (D : ℕ) where
  x : ℕ → Fin D → ℝ
  T : ℕ

/-- HMM.log_likelihood (hmm.pyx lines 540-558) without labels, for a
missing_values=False model: emission_log_proba (which needs the
emission parameters), one E-step, returning the forward log-likelihood
and the linear gamma. -/
noncomputable def log_likelihoodE {N D : ℕ} (m : GModelState N D) (s : Seq D) :
    Except HmmErr (Fl × (ℕ → Fin N → ℝ)) :=
  match m.emission with
  | none => Except.error HmmErr.uninitializedAttr
  | some g =>
      Except.ok (forwardLL m.lnPi m.lnA (fun t i => Fl.fin (g (s.x t) i)) s.T,
        fun t i => gammaLin m.lnPi m.lnA (fun t' i' => Fl.fin (g (s.x t') i')) s.T t i)

/-- Result shape of HMM.decode: the bare decoded array for a singleton
input, a list of decoded arrays otherwise. -/
inductive DecodeResult where
  | single (d : List ℕ)
  | multiple (ds : List (List ℕ))

/-- The decoded state array of one sequence (hmm.pyx lines 567-569):
per-timestep argmax of the gamma returned by log_likelihood. -/
noncomputable def decodeOne {N D : ℕ} (m : GModelState N D)
    (g : (Fin D → ℝ) → Fin N → ℝ) (s : Seq D) : List ℕ :=
  List.ofFn (fun t : Fin s.T =>
    argmaxRow (fun i =>
      gammaLin m.lnPi m.lnA (fun t' i' => Fl.fin (g (s.x t') i')) s.T t.val i))

/-- HMM.decode on a list input (hmm.pyx lines 560-572).
check_hmm_sequences_list (archmm/check_data, outside src/) is modelled
as the identity on well-formed sequence lists.  Each sequence is
decoded through log_likelihood; a singleton result list is unwrapped
(`if len(decoded) == 1: decoded = decoded[0]`). -/
noncomputable def decodeE {N D : ℕ} (m : GModelState N D) (Xs : List (Seq D)) :
    Except HmmErr DecodeResult := do
  let ds ← Xs.mapM (fun s => do
    let r ← log_likelihoodE m s
    pure (List.ofFn (fun t : Fin s.T => argmaxRow (fun i => r.2 t.val i))))
  match ds with
  | [d] => pure (DecodeResult.single d)
  | ds => pure (DecodeResult.multiple ds)

/-- HMM.get_num_params (hmm.pyx lines 574-581) with GHMM's per-state
count (lines 793-798): raises UntrainedModelError on an untrained
model, otherwise D + D(D+1)/2 parameters per state, N-1 free start
parameters and N(N-1) free transition parameters. -/
noncomputable def get_num_paramsE {N D : ℕ} (m : GModelState N D) :
    Except HmmErr ℝ :=
  if is_trained m then
    Except.ok ((((D : ℝ) + D * (D + 1) / 2) * N) + ((N : ℝ) - 1) + N * ((N : ℝ) - 1))
  else Except.error HmmErr.untrainedModel

/-- HMM.score (hmm.pyx lines 583-619) on a list input without labels:
n is the first sequence's length (line 596, an index error on an empty
list), the per-sequence log-likelihoods are computed and summed FIRST
(lines 600-603), get_num_params runs afterwards (line 606), then the
chosen criterion formula is evaluated in IEEE arithmetic.  The
aicc correction term is finite real arithmetic (its zero-denominator
overflow is not exercised by any claim). -/
noncomputable def scoreE {N D : ℕ} (m : GModelState N D) (Xs : List (Seq D))
    (c : Criterion) : Except HmmErr Fl :=
  match Xs with
  | [] => Except.error HmmErr.indexError
  | s0 :: _ => do
      let n : ℝ := s0.T
      let lnPs ← Xs.mapM (fun s => do
        let r ← log_likelihoodE m s
        pure r.1)
      let lnP := lnPs.foldl Fl.add (Fl.fin 0)
      let k ← get_num_paramsE m
      match c with
      | Criterion.aic => pure (Fl.fin (2 * k) - Fl.mul (Fl.fin 2) lnP)
      | Criterion.aicc => pure ((Fl.fin (2 * k) - Fl.mul (Fl.fin 2) lnP)
          + Fl.fin (2 * k * (k + 1) / (n - k - 1)))
      | Criterion.bic => pure (Fl.mul (Fl.fin k) (elog n) - lnP)
      | Criterion.negloglh => pure (Fl.neg lnP)

/-- A freshly constructed, untrained one-state model (hmm.pyx __init__
lines 229-248): n_features is -1 and the emission parameters were
never assigned (estimate_params runs only inside fit). -/
noncomputable def untrainedM : GModelState 1 1 :=
  { n_features := -1, lnPi := fun _ => Fl.fin 0, lnA := fun _ _ => Fl.fin 0,
    emission := none }

/-- A trained one-state model with assigned emission parameters. -/
noncomputable def trainedM : GModelState 1 1 :=
  { n_features := 1, lnPi := fun _ => Fl.fin 0, lnA := fun _ _ => Fl.fin 0,
    emission := some (fun _ _ => 0) }

/-- A length-1 constant sequence in one feature dimension. -/
def seqW : Seq 1 := { x := fun _ _ => 0, T := 1 }

/-- C7 counterexample: on the untrained model, decode and score both
fail with the uninitialized-emission-parameter error, which is NOT the
UntrainedModelError the claim requires: decode never consults
is_trained, and score touches the emission parameters (lines 600-603)
before it reaches get_num_params (line 606). -/
theorem C7_untrained_error_counterexample :
    is_trained untrainedM = false
    ∧ decodeE untrainedM [seqW] = Except.error HmmErr.uninitializedAttr
    ∧ scoreE untrainedM [seqW] Criterion.aic = Except.error HmmErr.uninitializedAttr :=
  ⟨rfl, rfl, rfl⟩

/-- C7 amended: calling decode or score on a model whose emission
parameters were never assigned raises an error and returns no result,
but it is the uninitialized-attribute error, not UntrainedModelError;
UntrainedModelError is raised by get_num_params on an untrained model,
which score would reach only after the log-likelihood computation
already required the emission parameters. -/
theorem C7_untrained_raises_attribute_error {N D : ℕ} (m : GModelState N D)
    (Xs : List (Seq D)) (c : Criterion) (s0 : Seq D) (hm : m.emission = none)
    (hXs : s0 ∈ Xs.head?) (htr : is_trained m = false) :
    decodeE m Xs = Except.error HmmErr.uninitializedAttr
    ∧ scoreE m Xs c = Except.error HmmErr.uninitializedAttr
    ∧ get_num_paramsE m = Except.error HmmErr.untrainedModel := by
  have hnone : ∀ s : Seq D,
      log_likelihoodE m s = Except.error HmmErr.uninitializedAttr := by
    intro s
    rw [log_likelihoodE, hm]
  rcases Xs with _ | ⟨s, rest⟩
  · exact absurd hXs (by simp)
  · refine ⟨?_, ?_, ?_⟩
    · rw [decodeE, List.mapM_cons, hnone s]
      rfl
    · rw [scoreE, List.mapM_cons, hnone s]
      rfl
    · rw [get_num_paramsE, if_neg (by rw [htr]; exact Bool.false_ne_true)]

/-- Witness for the amended C7 theorem at the concrete untrained
model. -/
theorem C7_untrained_raises_attribute_error_witness :
    decodeE untrainedM [seqW] = Except.error HmmErr.uninitializedAttr
    ∧ scoreE untrainedM [seqW] Criterion.bic = Except.error HmmErr.uninitializedAttr
    ∧ get_num_paramsE untrainedM = Except.error HmmErr.untrainedModel :=
  C7_untrained_raises_attribute_error untrainedM [seqW] Criterion.bic seqW
    rfl (by simp) rfl

theorem mapM_ok_of_forall {α β : Type} (F : α → Except HmmErr β) (f : α → β)
    (l : List α) (h : ∀ a ∈ l, F a = Except.ok (f a)) :
    l.mapM F = Except.ok (l.map f) := by
  induction l with
  | nil => rfl
  | cons a as ih =>
      rw [List.mapM_cons, h a (List.mem_cons_self a as),
        ih (fun b hb => h b (List.mem_cons_of_mem _ hb))]
      rfl

/-- C10: on a trained model, decode over a list of sequences returns
the bare decoded per-timestep index array when the list holds exactly
one sequence, and a list with one decoded array per sequence, in input
order, when it holds two or more; every decoded entry is an integer in
[0, n_states). -/
theorem C10_decode_shape_and_range {N D : ℕ} (m : GModelState N D)
    (g : (Fin D → ℝ) → Fin N → ℝ) (Xs : List (Seq D))
    (hm : m.emission = some g) (hN : 0 < N) :
    (∀ s, Xs = [s] →
      decodeE m Xs = Except.ok (DecodeResult.single (decodeOne m g s)))
    ∧ (2 ≤ Xs.length →
      decodeE m Xs = Except.ok (DecodeResult.multiple (Xs.map (decodeOne m g)))
      ∧ ∀ d ∈ Xs.map (decodeOne m g), ∀ v ∈ d, v < N) := by
  have hll : ∀ s : Seq D, log_likelihoodE m s
      = Except.ok (forwardLL m.lnPi m.lnA (fun t i => Fl.fin (g (s.x t) i)) s.T,
          fun t i => gammaLin m.lnPi m.lnA (fun t' i' => Fl.fin (g (s.x t') i')) s.T t i) := by
    intro s
    rw [log_likelihoodE, hm]
  have hmap : ∀ (Ys : List (Seq D)),
      Ys.mapM (fun s => do
        let r ← log_likelihoodE m s
        pure (List.ofFn (fun t : Fin s.T => argmaxRow (fun i => r.2 t.val i))))
      = Except.ok (Ys.map (decodeOne m g)) := by
    intro Ys
    refine mapM_ok_of_forall _ _ _ (fun s _ => ?_)
    rw [hll s]
    rfl
  constructor
  · rintro s rfl
    rw [decodeE, hmap [s]]
    rfl
  · intro hlen
    rcases Xs with _ | ⟨s1, _ | ⟨s2, rest⟩⟩
    · exact absurd hlen (by simp)
    · exact absurd hlen (by simp)
    · refine ⟨?_, ?_⟩
      · rw [decodeE, hmap (s1 :: s2 :: rest)]
        rfl
      · intro d hd v hv
        rcases List.mem_map.1 hd with ⟨s, _, rfl⟩
        rcases Set.mem_range.1 ((List.mem_ofFn _ v).1 hv) with ⟨t, rfl⟩
        exact argmaxRow_lt _ hN

/-- Witness for C10 on the trained model: a two-sequence input yields
the list-of-arrays result, and a singleton input yields the bare
array. -/
theorem C10_decode_shape_and_range_witness :
    decodeE trainedM [seqW, seqW] =
      Except.ok (DecodeResult.multiple
        ([seqW, seqW].map (decodeOne trainedM (fun _ _ => 0))))
    ∧ decodeE trainedM [seqW] =
      Except.ok (DecodeResult.single (decodeOne trainedM (fun _ _ => 0) seqW)) :=
  ⟨((C10_decode_shape_and_range trainedM (fun _ _ => 0) [seqW, seqW] rfl
      (by norm_num)).2 (by norm_num)).1,
   (C10_decode_shape_and_range trainedM (fun _ _ => 0) [seqW] rfl
      (by norm_num)).1 seqW rfl⟩

end ArchMM
